import Mathlib

/-!
Verification of the fixed-size worker thread pool library (src/src/lib.rs).

The embedding is shallow:

* `Worker`, `ThreadPool`, `PoolCreationError` mirror the Rust structs.
  The thread handle `Option<thread::JoinHandle<()>>` and the sender handle
  `Option<mpsc::Sender<Job>>` are modeled as `Option Unit`: the claims only
  concern whether the slot is occupied, taken, or vacated.
* `ThreadPool.new`, `ThreadPool.executeSend` and the state after
  `Drop for ThreadPool` (`ThreadPool.dropPool`) are translated from the
  source functions; `ThreadPool.newEvents` and `ThreadPool.dropEvents`
  record the side-effect order of the constructor and the destructor as
  they appear textually in the source.
* The worker receive loop (the closure passed to `thread::spawn` in
  `Worker::new`) is modeled by `workerRun` / `workerTerminated` over the
  sequence of results successive `recv()` calls return, and by the
  lock-event trace `workerIterTrace` for the mutual-exclusion claims.
* The whole pool during shutdown is modeled by a small-step transition
  system (`Step`, `Reach`) over `SysState`, which captures the mpsc
  channel semantics the source relies on: `recv()` returns a job while
  the queue is nonempty, and returns `Err` only once the sender is
  dropped and the queue is empty.

Jobs carry no data relevant to the claims, so a job is identified by a
natural number.
-/

/-- Embedding of `struct Worker` (lib.rs 20-23): an ordinal `id: usize` and
a thread-handle slot `thread: Option<thread::JoinHandle<()>>`. -/
structure Worker where
  id : Nat
  thread : Option Unit
deriving DecidableEq

/-- Embedding of `struct PoolCreationError` (lib.rs 27-29): a message only. -/
structure PoolCreationError where
  message : String
deriving DecidableEq

/-- Embedding of `struct ThreadPool` (lib.rs 11-14): `workers: Vec<Worker>`
and `sender: Option<mpsc::Sender<Job>>`. -/
structure ThreadPool where
  workers : List Worker
  sender : Option Unit
deriving DecidableEq

/-- Embedding of `Worker::new` (lib.rs 51-72): spawns the receive loop
(modeled separately by `workerRun`) and returns
`Worker { id, thread: Some(thread) }`. -/
def Worker.new (id : Nat) : Worker :=
  { id := id, thread := some () }

/-- Embedding of `ThreadPool::new` (lib.rs 76-92): if `size < 1` return
`Err(PoolCreationError { message: "Invalid size" })`; otherwise create the
channel and push `Worker::new(id, ...)` for `id in 0..size`, returning
`Ok(ThreadPool { workers, sender: Some(sender) })`. -/
def ThreadPool.new (size : Nat) : Except PoolCreationError ThreadPool :=
  if size < 1 then
    Except.error { message := "Invalid size" }
  else
    Except.ok { workers := (List.range size).map Worker.new, sender := some () }

/-- Observable side effects of `ThreadPool::new`: creating the mpsc channel
and spawning one thread per worker. -/
inductive NewEvent where
  | createChannel
  | spawnThread (id : Nat)
deriving DecidableEq

/-- Side-effect trace of `ThreadPool::new`, in source order: the early
`return Err(...)` on `size < 1` (lib.rs 77-81) happens before
`mpsc::channel()` (line 82) and before any `thread::spawn` (inside
`Worker::new`, called once per `id in 0..size` at line 86). -/
def ThreadPool.newEvents (size : Nat) : List NewEvent :=
  if size < 1 then
    []
  else
    NewEvent.createChannel :: (List.range size).map NewEvent.spawnThread

/-- Observable steps of `Drop for ThreadPool`: dropping the taken sender,
and joining one worker thread. -/
inductive DropEvent where
  | dropSenderHandle
  | join (id : Nat)
deriving DecidableEq

/-- Event trace of `Drop for ThreadPool` (lib.rs 102-114), in source order:
first `drop(self.sender.take())`, then for each worker in vector order,
`thread.join()` whenever `worker.thread.take()` yields a handle. -/
def ThreadPool.dropEvents (p : ThreadPool) : List DropEvent :=
  DropEvent.dropSenderHandle ::
    p.workers.filterMap (fun w => w.thread.map (fun _ => DropEvent.join w.id))

/-- State of the pool after `Drop for ThreadPool` ran: the sender slot was
`take`n (line 104) and every worker's thread slot was `take`n (line 109). -/
def ThreadPool.dropPool (p : ThreadPool) : ThreadPool :=
  { workers := p.workers.map (fun w => { w with thread := none }),
    sender := none }

/-- Embedding of `ThreadPool::execute` (lib.rs 94-97):
`self.sender.as_ref().unwrap().send(job)`. The result is `none` exactly
when the `unwrap()` of the optional sender would panic (sender absent),
and `some j` when job `j` is handed to the channel. `execute` takes
`&self`, so the pool state itself is unchanged by a call. -/
def ThreadPool.executeSend (p : ThreadPool) (j : Nat) : Option Nat :=
  p.sender.map (fun _ => j)

/-- Result of one `receiver.lock().unwrap().recv()` call in the worker
loop (lib.rs 54): `ok j` when a job arrives, `err` when the channel
reports disconnection. -/
inductive RecvResult where
  | ok (j : Nat)
  | err
deriving DecidableEq

/-- The worker loop (lib.rs 53-66) run against the sequence of results the
successive `recv()` calls return: on `Ok(job)` it executes the job and
loops; on `Err(_)` it executes `break`. The value is the list of jobs the
loop executes, in order. An exhausted input list means the loop is still
blocked inside `recv`. -/
def workerRun : List RecvResult → List Nat
  | [] => []
  | RecvResult.ok j :: rest => j :: workerRun rest
  | RecvResult.err :: _ => []

/-- Whether the worker loop has executed `break` (and the thread finished)
after the given sequence of `recv()` results. -/
def workerTerminated : List RecvResult → Bool
  | [] => false
  | RecvResult.ok _ :: rest => workerTerminated rest
  | RecvResult.err :: _ => true

/-- Synchronization events of one worker loop iteration, tagged with the
worker id: acquiring and releasing the mutex around the shared receiver,
and starting and finishing the execution of the dequeued job. -/
inductive LockEvent where
  | lock (w : Nat)
  | unlock (w : Nat)
  | execStart (w : Nat)
  | execEnd (w : Nat)
deriving DecidableEq

/-- Event trace of one iteration of the worker loop in which a job is
received (lib.rs 53-60). In
`let message = receiver.lock().unwrap().recv();` the `MutexGuard` is a
temporary of that statement, so it is dropped when the statement ends,
before the `match` arm runs `job()`: hence `unlock` precedes `execStart`
in the iteration's trace. -/
def workerIterTrace (w : Nat) : List LockEvent :=
  [LockEvent.lock w, LockEvent.unlock w, LockEvent.execStart w, LockEvent.execEnd w]

/-- An interleaving of the event traces of two threads. -/
inductive Interleaves : List LockEvent → List LockEvent → List LockEvent → Prop where
  | nil : Interleaves [] [] []
  | left {x xs ys zs} : Interleaves xs ys zs → Interleaves (x :: xs) ys (x :: zs)
  | right {y xs ys zs} : Interleaves xs ys zs → Interleaves xs (y :: ys) (y :: zs)

/-- Checks that a global event trace respects the mutual exclusion of the
receiver's mutex: `lock w` only when no thread holds the guard, `unlock w`
only by the holder `w`. The first argument is the current holder. -/
def mutexOk : Option Nat → List LockEvent → Bool
  | _, [] => true
  | none, LockEvent.lock w :: rest => mutexOk (some w) rest
  | some _, LockEvent.lock _ :: _ => false
  | some h, LockEvent.unlock w :: rest => h = w && mutexOk none rest
  | none, LockEvent.unlock _ :: _ => false
  | holder, LockEvent.execStart _ :: rest => mutexOk holder rest
  | holder, LockEvent.execEnd _ :: rest => mutexOk holder rest

/-- Checks, along a single worker's trace, that the mutex guard is not
held at any point where a job is executing. The first argument tracks
whether the guard is currently held. -/
def lockFreeExec : Bool → List LockEvent → Bool
  | _, [] => true
  | _, LockEvent.lock _ :: rest => lockFreeExec true rest
  | _, LockEvent.unlock _ :: rest => lockFreeExec false rest
  | held, LockEvent.execStart _ :: rest => !held && lockFreeExec held rest
  | held, LockEvent.execEnd _ :: rest => lockFreeExec held rest

/-- Checks that at some instant of the global trace, worker 0 and worker 1
are both between their `execStart` and `execEnd`: two jobs running at
once. The booleans track whether worker 0, resp. worker 1, is currently
executing a job. -/
def overlapRun : Bool → Bool → List LockEvent → Bool
  | _, _, [] => false
  | a, b, LockEvent.execStart w :: rest =>
      let a2 := a || decide (w = 0)
      let b2 := b || decide (w = 1)
      (a2 && b2) || overlapRun a2 b2 rest
  | a, b, LockEvent.execEnd w :: rest =>
      overlapRun (a && !decide (w = 0)) (b && !decide (w = 1)) rest
  | a, b, _ :: rest => overlapRun a b rest

/-! ### Shutdown transition system

A small-step model of the pool together with the mpsc channel and the
destructor's join loop, used for the disposal claims. The mpsc semantics
the source relies on (std::sync::mpsc): `recv()` yields a queued job in
FIFO order whenever one is pending, regardless of whether the sender is
still alive, and returns `Err(RecvError)` only when the sender has been
dropped and no job is pending. Jobs are identified by naturals; executed
and submitted jobs are counted as multisets since completion order is
unspecified. -/

/-- Status of one worker thread: blocked in or about to call `recv`
(`running`), executing a dequeued job (`executing j`), or finished after
`break` (`done`). -/
inductive WStatus where
  | running
  | executing (j : Nat)
  | done
deriving DecidableEq

/-- Global state: the channel's pending queue (FIFO), whether the sender
has been dropped (`closed`), the status of each worker thread, the
multisets of executed and submitted jobs, and how many workers the
destructor's join loop has already joined. -/
structure SysState where
  queue : List Nat
  closed : Bool
  workers : List WStatus
  executed : Multiset Nat
  submitted : Multiset Nat
  joined : Nat
deriving DecidableEq

/-- Initial state of a pool of `n` workers, as built by `ThreadPool::new`:
empty channel, live sender, all workers blocked in `recv`, destructor not
yet run. -/
def initState (n : Nat) : SysState :=
  { queue := [], closed := false, workers := List.replicate n WStatus.running,
    executed := 0, submitted := 0, joined := 0 }

/-- Jobs currently held by one worker. -/
def contrib : WStatus → Multiset Nat
  | WStatus.executing j => {j}
  | _ => 0

/-- Jobs currently dequeued but not yet finished, across all workers. -/
def inFlight (ws : List WStatus) : Multiset Nat :=
  (ws.map contrib).sum

/-- One step of the pool system.

* `send`: `ThreadPool::execute` enqueues a job while the sender is alive.
* `close`: the destructor's `drop(self.sender.take())` (lib.rs 104).
* `recv`: a `running` worker's `recv()` returns the head of a nonempty
  queue and the worker starts executing it (lib.rs 57-59).
* `finish`: `job()` returns and the worker loops back to `recv`.
* `disconnect`: `recv()` returns `Err` — only possible once the sender is
  dropped and the queue is empty — and the worker executes `break`
  (lib.rs 61-64).
* `join`: the destructor joins the next worker in index order, which
  requires that worker's thread function to have returned (lib.rs 106-112). -/
inductive Step : SysState → SysState → Prop where
  | send (s : SysState) (j : Nat) (hc : s.closed = false) :
      Step s { s with queue := s.queue ++ [j], submitted := j ::ₘ s.submitted }
  | close (s : SysState) (hc : s.closed = false) :
      Step s { s with closed := true }
  | recv (s : SysState) (i j : Nat) (rest : List Nat)
      (hw : s.workers.get? i = some WStatus.running)
      (hq : s.queue = j :: rest) :
      Step s { s with queue := rest, workers := s.workers.set i (WStatus.executing j) }
  | finish (s : SysState) (i j : Nat)
      (hw : s.workers.get? i = some (WStatus.executing j)) :
      Step s { s with workers := s.workers.set i WStatus.running,
                      executed := j ::ₘ s.executed }
  | disconnect (s : SysState) (i : Nat)
      (hw : s.workers.get? i = some WStatus.running)
      (hq : s.queue = []) (hc : s.closed = true) :
      Step s { s with workers := s.workers.set i WStatus.done }
  | join (s : SysState)
      (hw : s.workers.get? s.joined = some WStatus.done) :
      Step s { s with joined := s.joined + 1 }

/-- States reachable from a fresh pool of `n` workers. -/
def Reach (n : Nat) (s : SysState) : Prop :=
  Relation.ReflTransGen Step (initState n) s

/-- Inductive invariant of the pool system:
1. the worker count is fixed at `n`;
2. conservation: every submitted job is executed, in flight, or queued;
3. while the sender is alive no worker has observed disconnection;
4. the destructor joins only workers whose thread function returned;
5. the join loop never runs past the worker vector;
6. for a nonempty pool, once every worker has shut down the queue is empty. -/
def PoolInv (n : Nat) (s : SysState) : Prop :=
  s.workers.length = n ∧
  s.submitted = s.executed + inFlight s.workers + (s.queue : Multiset Nat) ∧
  (s.closed = false → ∀ w ∈ s.workers, w ≠ WStatus.done) ∧
  (∀ i, i < s.joined → s.workers.get? i = some WStatus.done) ∧
  s.joined ≤ n ∧
  (0 < n → (∀ w ∈ s.workers, w = WStatus.done) → s.queue = [])

/-- Final state of a concrete complete run of the shutdown system for a
pool of one worker that received one job (number 5): used to witness the
disposal theorem. -/
def shutdownRunFinal : SysState :=
  { queue := [], closed := true, workers := [WStatus.done],
    executed := {5}, submitted := {5}, joined := 1 }

/-! ### Helper lemmas -/

theorem get?_set_self {α : Type} {l : List α} {i : Nat} {w : α} (v : α)
    (h : l.get? i = some w) : (l.set i v).get? i = some v := by
  induction l generalizing i with
  | nil => simp at h
  | cons x t ih =>
    cases i with
    | zero => rfl
    | succ i => exact ih h

theorem get?_set_diff {α : Type} {l : List α} {i j : Nat} (v : α)
    (h : i ≠ j) : (l.set i v).get? j = l.get? j := by
  induction l generalizing i j with
  | nil => simp
  | cons x t ih =>
    cases i with
    | zero =>
      cases j with
      | zero => exact absurd rfl h
      | succ j => rfl
    | succ i =>
      cases j with
      | zero => rfl
      | succ j => exact ih (fun he => h (by rw [he]))

theorem mem_of_get? {α : Type} {l : List α} {i : Nat} {a : α}
    (h : l.get? i = some a) : a ∈ l := by
  induction l generalizing i with
  | nil => simp at h
  | cons x t ih =>
    cases i with
    | zero =>
      simp at h
      simp [h]
    | succ i => exact List.mem_cons_of_mem x (ih h)

theorem get?_of_mem {α : Type} {l : List α} {a : α}
    (h : a ∈ l) : ∃ i, l.get? i = some a := by
  induction l with
  | nil => simp at h
  | cons x t ih =>
    rcases List.mem_cons.mp h with h | h
    · exact ⟨0, by simp [h]⟩
    · obtain ⟨i, hi⟩ := ih h
      exact ⟨i + 1, by simpa using hi⟩

theorem lt_length_of_get? {α : Type} {l : List α} {i : Nat} {a : α}
    (h : l.get? i = some a) : i < l.length := by
  induction l generalizing i with
  | nil => simp at h
  | cons x t ih =>
    cases i with
    | zero => simp
    | succ i => simpa using ih h

theorem mem_set_cases {α : Type} {l : List α} {i : Nat} {a b : α}
    (h : a ∈ l.set i b) : a ∈ l ∨ a = b := by
  induction l generalizing i with
  | nil => simp [List.set] at h
  | cons x t ih =>
    cases i with
    | zero =>
      rcases List.mem_cons.mp h with h | h
      · exact Or.inr h
      · exact Or.inl (List.mem_cons_of_mem x h)
    | succ i =>
      rcases List.mem_cons.mp h with h | h
      · exact Or.inl (by simp [h])
      · rcases ih h with h | h
        · exact Or.inl (List.mem_cons_of_mem x h)
        · exact Or.inr h

theorem inFlight_set {ws : List WStatus} {i : Nat} {w : WStatus} (v : WStatus)
    (h : ws.get? i = some w) :
    inFlight (ws.set i v) + contrib w = inFlight ws + contrib v := by
  induction ws generalizing i with
  | nil => simp at h
  | cons x t ih =>
    cases i with
    | zero =>
      simp at h
      subst h
      simp only [List.set, inFlight, List.map_cons, List.sum_cons]
      abel
    | succ i =>
      simp only [List.set, inFlight, List.map_cons, List.sum_cons] at *
      rw [add_assoc, add_assoc, ih h]

theorem inFlight_all_done {ws : List WStatus}
    (h : ∀ w ∈ ws, w = WStatus.done) : inFlight ws = 0 := by
  induction ws with
  | nil => rfl
  | cons x t ih =>
    have hx := h x (by simp)
    subst hx
    simp only [inFlight, List.map_cons, List.sum_cons] at *
    rw [ih (fun w hw => h w (List.mem_cons_of_mem _ hw))]
    rfl

theorem all_done_of_get? {ws : List WStatus}
    (h : ∀ i, i < ws.length → ws.get? i = some WStatus.done) :
    ∀ w ∈ ws, w = WStatus.done := by
  intro w hw
  obtain ⟨i, hi⟩ := get?_of_mem hw
  have h2 := h i (lt_length_of_get? hi)
  rw [hi] at h2
  exact Option.some.inj h2

theorem poolInv_init (n : Nat) : PoolInv n (initState n) := by
  refine ⟨by simp [initState], ?_, ?_, ?_, by simp [initState], ?_⟩
  · simp [initState, inFlight, contrib, List.map_replicate]
  · intro _ w hw
    rw [List.eq_of_mem_replicate hw]
    simp
  · intro i hi
    simp [initState] at hi
  · intro _ _
    rfl

theorem poolInv_step {n : Nat} {s t : SysState} (hs : PoolInv n s) (hst : Step s t) :
    PoolInv n t := by
  obtain ⟨hlen, hcons, hnd, hjd, hjle, hdq⟩ := hs
  cases hst with
  | send j hc =>
    refine ⟨hlen, ?_, ?_, hjd, hjle, ?_⟩
    · show j ::ₘ s.submitted =
        s.executed + inFlight s.workers + ((s.queue ++ [j] : List Nat) : Multiset Nat)
      rw [hcons, ← Multiset.coe_add, Multiset.coe_singleton, ← Multiset.singleton_add]
      abel
    · intro h w hw
      exact hnd h w hw
    · intro hn hall
      have hx : s.workers ≠ [] := by
        intro h0
        rw [h0] at hlen
        simp at hlen
        omega
      obtain ⟨w, hw⟩ := List.exists_mem_of_ne_nil s.workers hx
      exact absurd (hall w hw) (hnd hc w hw)
  | close hc =>
    refine ⟨hlen, hcons, ?_, hjd, hjle, ?_⟩
    · intro h
      simp at h
    · intro hn hall
      exact hdq hn hall
  | recv i j rest hw hq =>
    have h2 := inFlight_set (WStatus.executing j) hw
    simp only [contrib, add_zero] at h2
    refine ⟨by simp [hlen], ?_, ?_, ?_, hjle, ?_⟩
    · show s.submitted = s.executed +
        inFlight (s.workers.set i (WStatus.executing j)) + (rest : Multiset Nat)
      rw [hcons, hq, h2, ← Multiset.cons_coe, ← Multiset.singleton_add]
      abel
    · intro hc w hmem
      rcases mem_set_cases hmem with h | h
      · exact hnd hc w h
      · subst h
        simp
    · intro i2 hi2
      have hd := hjd i2 hi2
      by_cases he : i = i2
      · subst he
        rw [hd] at hw
        simp at hw
      · rw [get?_set_diff _ he]
        exact hd
    · intro hn hall
      have hmem := mem_of_get? (get?_set_self (WStatus.executing j) hw)
      have := hall _ hmem
      simp at this
  | finish i j hw =>
    have h2 := inFlight_set WStatus.running hw
    simp only [contrib, add_zero] at h2
    refine ⟨by simp [hlen], ?_, ?_, ?_, hjle, ?_⟩
    · show s.submitted = j ::ₘ s.executed +
        inFlight (s.workers.set i WStatus.running) + (s.queue : Multiset Nat)
      rw [hcons, ← h2, ← Multiset.singleton_add]
      abel
    · intro hc w hmem
      rcases mem_set_cases hmem with h | h
      · exact hnd hc w h
      · subst h
        simp
    · intro i2 hi2
      have hd := hjd i2 hi2
      by_cases he : i = i2
      · subst he
        rw [hd] at hw
        simp at hw
      · rw [get?_set_diff _ he]
        exact hd
    · intro hn hall
      have hmem := mem_of_get? (get?_set_self WStatus.running hw)
      have := hall _ hmem
      simp at this
  | disconnect i hw hq hc =>
    have h2 := inFlight_set WStatus.done hw
    simp only [contrib, add_zero] at h2
    refine ⟨by simp [hlen], ?_, ?_, ?_, hjle, ?_⟩
    · show s.submitted = s.executed +
        inFlight (s.workers.set i WStatus.done) + (s.queue : Multiset Nat)
      rw [hcons, h2]
    · intro hcf
      rw [hc] at hcf
      simp at hcf
    · intro i2 hi2
      by_cases he : i = i2
      · subst he
        exact get?_set_self WStatus.done hw
      · rw [get?_set_diff _ he]
        exact hjd i2 hi2
    · intro _ _
      exact hq
  | join hw =>
    refine ⟨hlen, hcons, hnd, ?_, ?_, ?_⟩
    · intro i2 hi2
      have hi3 : i2 < s.joined + 1 := hi2
      by_cases he : i2 = s.joined
      · subst he
        exact hw
      · exact hjd i2 (by omega)
    · show s.joined + 1 ≤ n
      have := lt_length_of_get? hw
      omega
    · intro hn hall
      exact hdq hn hall

theorem poolInv_reach {n : Nat} {s : SysState} (h : Reach n s) : PoolInv n s := by
  have h2 : Relation.ReflTransGen Step (initState n) s := h
  clear h
  induction h2 with
  | refl => exact poolInv_init n
  | tail _ hbc ih => exact poolInv_step ih hbc

/-! ### Claims -/

/-- C1: for every size `N ≥ 1`, `ThreadPool::new(N)` returns `Ok` with a
pool whose `workers` vector has exactly `N` elements, and the length is
still `N` after the only state-changing operation of the pool's lifetime,
the destructor (`execute` takes `&self` and leaves the state unchanged). -/
theorem construct_yields_n_workers (N : Nat) (hN : 1 ≤ N) :
    Except.map (fun p => p.workers.length) (ThreadPool.new N) = Except.ok N ∧
    Except.map (fun p => (ThreadPool.dropPool p).workers.length) (ThreadPool.new N) =
      Except.ok N := by
  have h : ¬ N < 1 := by omega
  constructor
  · simp [ThreadPool.new, h, Except.map]
  · simp [ThreadPool.new, h, Except.map, ThreadPool.dropPool]

/-- Witness for C1 at `N = 3`. -/
theorem construct_yields_n_workers_witness :
    Except.map (fun p => p.workers.length) (ThreadPool.new 3) = Except.ok 3 ∧
    Except.map (fun p => (ThreadPool.dropPool p).workers.length) (ThreadPool.new 3) =
      Except.ok 3 :=
  construct_yields_n_workers 3 (by decide)

/-- C2: the only non-positive value of the unsigned size type is `0`;
`ThreadPool::new(0)` returns the `PoolCreationError` with the non-empty
message `"Invalid size"`, its side-effect trace is empty (no channel
created, no thread spawned), and `new` succeeds exactly on sizes `≥ 1`. -/
theorem construct_nonpositive_fails :
    ThreadPool.new 0 = Except.error { message := "Invalid size" } ∧
    "Invalid size" ≠ "" ∧
    ThreadPool.newEvents 0 = [] ∧
    ∀ N : Nat, Except.isOk (ThreadPool.new N) = decide (1 ≤ N) := by
  refine ⟨rfl, by decide, rfl, ?_⟩
  intro N
  by_cases h : N < 1
  · have h0 : N = 0 := by omega
    subst h0
    rfl
  · have h1 : decide (1 ≤ N) = true := by
      simp
      omega
    simp [ThreadPool.new, h, Except.isOk, Except.toBool, h1]

/-- C3: the workers of a pool built by `ThreadPool::new(N)` carry the ids
`0, 1, ..., N-1` in that order, both at construction and after the
destructor ran (nothing ever writes a worker's `id` field). -/
theorem worker_ids_are_range (N : Nat) (hN : 1 ≤ N) :
    Except.map (fun p => p.workers.map Worker.id) (ThreadPool.new N) =
      Except.ok (List.range N) ∧
    Except.map (fun p => (ThreadPool.dropPool p).workers.map Worker.id) (ThreadPool.new N) =
      Except.ok (List.range N) := by
  have h : ¬ N < 1 := by omega
  constructor
  · simp only [ThreadPool.new, h, if_false, Except.map, List.map_map]
    exact congrArg Except.ok (List.map_id (List.range N))
  · simp only [ThreadPool.new, h, if_false, Except.map, ThreadPool.dropPool,
      List.map_map]
    exact congrArg Except.ok (List.map_id (List.range N))

/-- Witness for C3 at `N = 3`. -/
theorem worker_ids_are_range_witness :
    Except.map (fun p => p.workers.map Worker.id) (ThreadPool.new 3) =
      Except.ok (List.range 3) ∧
    Except.map (fun p => (ThreadPool.dropPool p).workers.map Worker.id) (ThreadPool.new 3) =
      Except.ok (List.range 3) :=
  worker_ids_are_range 3 (by decide)

/-- C4: the destructor's trace on a pool built by `ThreadPool::new(N)` is
exactly: drop the taken sender first, then join the workers `0, ..., N-1`
in ascending index order (the order of the `workers` vector). -/
theorem drop_event_order (N : Nat) (hN : 1 ≤ N) (p : ThreadPool)
    (hp : ThreadPool.new N = Except.ok p) :
    p.dropEvents = DropEvent.dropSenderHandle :: (List.range N).map DropEvent.join := by
  have h : ¬ N < 1 := by omega
  rw [ThreadPool.new] at hp
  simp only [h, if_false, Except.ok.injEq] at hp
  subst hp
  show DropEvent.dropSenderHandle ::
      List.filterMap (fun w => w.thread.map (fun _ => DropEvent.join w.id))
        ((List.range N).map Worker.new) =
    DropEvent.dropSenderHandle :: (List.range N).map DropEvent.join
  rw [List.filterMap_map]
  have he : ((fun w => Option.map (fun _ => DropEvent.join w.id) w.thread) ∘ Worker.new) =
      some ∘ DropEvent.join := rfl
  rw [he, List.filterMap_eq_map]

/-- Witness for C4 at `N = 2`. -/
theorem drop_event_order_witness :
    ({ workers := [Worker.new 0, Worker.new 1], sender := some () } : ThreadPool).dropEvents =
      DropEvent.dropSenderHandle :: (List.range 2).map DropEvent.join :=
  drop_event_order 2 (by decide)
    { workers := [Worker.new 0, Worker.new 1], sender := some () } rfl

/-- C5: the sender slot of a pool built by `ThreadPool::new` is occupied
(`Some`) from the moment `new` returns; `execute` takes `&self` and leaves
the state unchanged, so the slot stays occupied until the destructor runs;
the destructor empties it (`self.sender.take()`); and the transition is
irreversible: disposal of any pool state whatsoever leaves the slot `none`,
and no operation of the library writes `some` back. -/
theorem sender_present_until_disposal (N : Nat) (hN : 1 ≤ N) (p : ThreadPool)
    (hp : ThreadPool.new N = Except.ok p) :
    p.sender = some () ∧
    (ThreadPool.dropPool p).sender = none ∧
    ∀ q : ThreadPool, (ThreadPool.dropPool q).sender = none := by
  have h : ¬ N < 1 := by omega
  rw [ThreadPool.new] at hp
  simp only [h, if_false, Except.ok.injEq] at hp
  subst hp
  exact ⟨rfl, rfl, fun q => rfl⟩

/-- Witness for C5 at `N = 1`. -/
theorem sender_present_until_disposal_witness :
    ({ workers := [Worker.new 0], sender := some () } : ThreadPool).sender = some () ∧
    (ThreadPool.dropPool { workers := [Worker.new 0], sender := some () }).sender = none ∧
    ∀ q : ThreadPool, (ThreadPool.dropPool q).sender = none :=
  sender_present_until_disposal 1 (by decide)
    { workers := [Worker.new 0], sender := some () } rfl

/-- C6: each worker's thread-handle slot is occupied (`Some`) from
construction; the destructor `take`s it; and after any disposal every slot
is `none` and stays `none` — no operation of the library refills it. -/
theorem worker_thread_slot_lifecycle (N : Nat) (hN : 1 ≤ N) (p : ThreadPool)
    (hp : ThreadPool.new N = Except.ok p) :
    (∀ w ∈ p.workers, w.thread = some ()) ∧
    (∀ w ∈ (ThreadPool.dropPool p).workers, w.thread = none) ∧
    (∀ q : ThreadPool, ∀ w ∈ (ThreadPool.dropPool q).workers, w.thread = none) := by
  have h : ¬ N < 1 := by omega
  rw [ThreadPool.new] at hp
  simp only [h, if_false, Except.ok.injEq] at hp
  subst hp
  refine ⟨?_, ?_, ?_⟩
  · intro w hw
    simp only [List.mem_map] at hw
    obtain ⟨i, _, hi⟩ := hw
    rw [← hi]
    rfl
  · intro w hw
    simp only [ThreadPool.dropPool, List.mem_map] at hw
    obtain ⟨x, _, hx⟩ := hw
    rw [← hx]
  · intro q w hw
    simp only [ThreadPool.dropPool, List.mem_map] at hw
    obtain ⟨x, _, hx⟩ := hw
    rw [← hx]

/-- Witness for C6 at `N = 1`. -/
theorem worker_thread_slot_lifecycle_witness :
    (∀ w ∈ ({ workers := [Worker.new 0], sender := some () } : ThreadPool).workers,
      w.thread = some ()) ∧
    (∀ w ∈ (ThreadPool.dropPool { workers := [Worker.new 0], sender := some () }).workers,
      w.thread = none) ∧
    (∀ q : ThreadPool, ∀ w ∈ (ThreadPool.dropPool q).workers, w.thread = none) :=
  worker_thread_slot_lifecycle 1 (by decide)
    { workers := [Worker.new 0], sender := some () } rfl

/-- C7: on each loop iteration, `Ok(job)` makes the worker execute exactly
that job and continue with the remaining messages; `Err` makes the loop
break at once — nothing further is executed no matter what follows; and
the loop never exits for any other reason: it has terminated exactly when
some `recv()` returned `Err` (which mpsc produces only once the sender is
dropped and no job is pending, as the `disconnect` step of the shutdown
system records). -/
theorem worker_loop_behavior :
    (∀ (j : Nat) (ms : List RecvResult),
      workerRun (RecvResult.ok j :: ms) = j :: workerRun ms ∧
      workerTerminated (RecvResult.ok j :: ms) = workerTerminated ms) ∧
    (∀ ms : List RecvResult,
      workerRun (RecvResult.err :: ms) = [] ∧
      workerTerminated (RecvResult.err :: ms) = true) ∧
    (∀ ms : List RecvResult, workerTerminated ms = true ↔ RecvResult.err ∈ ms) := by
  refine ⟨fun j ms => ⟨rfl, rfl⟩, fun ms => ⟨rfl, rfl⟩, ?_⟩
  intro ms
  induction ms with
  | nil => simp [workerTerminated]
  | cons x t ih =>
    cases x with
    | ok j => simpa [workerTerminated] using ih
    | err => simp [workerTerminated]

/-- C8: a worker's iteration trace releases the receiver mutex before the
job starts (the guard in `let message = receiver.lock().unwrap().recv();`
is a temporary dropped at the end of that statement, before `job()`), the
trace itself respects the mutex discipline, and there is an interleaving of
two workers' iterations that respects mutual exclusion of the guard while
both jobs are running at the same instant — execution is not serialized by
the guard, only dequeueing is. -/
theorem lock_released_before_job_runs :
    (∀ w : Nat, lockFreeExec false (workerIterTrace w) = true) ∧
    (∀ w : Nat, mutexOk none (workerIterTrace w) = true) ∧
    ∃ t, Interleaves (workerIterTrace 0) (workerIterTrace 1) t ∧
      mutexOk none t = true ∧ overlapRun false false t = true := by
  refine ⟨fun w => rfl, fun w => ?_, ?_⟩
  · simp [workerIterTrace, mutexOk]
  · refine ⟨[LockEvent.lock 0, LockEvent.unlock 0, LockEvent.lock 1, LockEvent.unlock 1,
      LockEvent.execStart 0, LockEvent.execStart 1, LockEvent.execEnd 0, LockEvent.execEnd 1],
      ?_, by decide, by decide⟩
    exact Interleaves.left (Interleaves.left (Interleaves.right (Interleaves.right
      (Interleaves.left (Interleaves.right (Interleaves.left (Interleaves.right
        Interleaves.nil)))))))

/-- C10: for any pool returned by `ThreadPool::new` and any `execute` call
made before disposal begins, the `unwrap()` of the optional sender inside
`execute` cannot panic: the sender is present and the job reaches the
channel. (`execute` takes `&self`, so earlier `execute` calls leave the
sender unchanged; only the destructor removes it.) -/
theorem execute_unwrap_cannot_panic (N : Nat) (hN : 1 ≤ N) (p : ThreadPool)
    (hp : ThreadPool.new N = Except.ok p) (j : Nat) :
    p.executeSend j = some j := by
  have h : ¬ N < 1 := by omega
  rw [ThreadPool.new] at hp
  simp only [h, if_false, Except.ok.injEq] at hp
  subst hp
  rfl

/-- Witness for C10 at `N = 1`, job `42`. -/
theorem execute_unwrap_cannot_panic_witness :
    ({ workers := [Worker.new 0], sender := some () } : ThreadPool).executeSend 42 = some 42 :=
  execute_unwrap_cannot_panic 1 (by decide)
    { workers := [Worker.new 0], sender := some () } rfl 42

/-- C9: in the shutdown transition system, whenever disposal has returned
(the destructor's join loop has joined all `n` workers of a nonempty
pool), every job submitted before the sender was dropped has completed:
the executed multiset equals the submitted multiset, the channel queue is
empty, and no worker is still running a job. The joins are what block the
disposing thread until this point, since a worker can only be joined once
its loop has observed disconnection, which mpsc signals only after the
sender is dropped and the queue has drained. -/
theorem disposal_completes_all_jobs {n : Nat} {s : SysState} (hn : 0 < n)
    (hr : Reach n s) (hj : s.joined = n) :
    s.executed = s.submitted ∧ s.queue = [] ∧ inFlight s.workers = 0 := by
  obtain ⟨hlen, hcons, hnd, hjd, hjle, hdq⟩ := poolInv_reach hr
  have hall : ∀ w ∈ s.workers, w = WStatus.done := by
    apply all_done_of_get?
    intro i hi
    exact hjd i (by omega)
  have hq : s.queue = [] := hdq hn hall
  have hf : inFlight s.workers = 0 := inFlight_all_done hall
  refine ⟨?_, hq, hf⟩
  rw [hcons, hf, hq]
  simp

/-- Witness for C9: a complete concrete run of a pool of one worker — one
job is submitted and executed, the sender is dropped, the worker drains,
disconnects and is joined — after which executed = submitted = {5}. -/
theorem disposal_completes_all_jobs_witness :
    shutdownRunFinal.executed = shutdownRunFinal.submitted ∧
    shutdownRunFinal.queue = [] ∧
    inFlight shutdownRunFinal.workers = 0 := by
  have hchain : Relation.ReflTransGen Step (initState 1) shutdownRunFinal := by
    refine Relation.ReflTransGen.head (Step.send (initState 1) 5 rfl) ?_
    refine Relation.ReflTransGen.head (Step.close _ rfl) ?_
    refine Relation.ReflTransGen.head (Step.recv _ 0 5 [] rfl rfl) ?_
    refine Relation.ReflTransGen.head (Step.finish _ 0 5 rfl) ?_
    refine Relation.ReflTransGen.head (Step.disconnect _ 0 rfl rfl rfl) ?_
    refine Relation.ReflTransGen.head (Step.join _ rfl) ?_
    exact Relation.ReflTransGen.refl
  exact disposal_completes_all_jobs (by decide) hchain rfl
